import Mathlib

/-!
Verification of the process-pool subsystem of `thejoker` (`thejoker/pool.py`).

The Python source is shallowly embedded: each pool's `map`, `close`,
`enabled` and constructor checks become executable Lean definitions, message
passing becomes explicit message lists, and the nondeterministic arrival
order of worker results becomes an explicit schedule/permutation parameter.
Python calls that may raise are modelled with an explicit outcome type.
-/

namespace ThejokerPool

/-- Outcome of a Python call: either a normal return value or a raised
exception (carrying the exception text). -/
inductive PyOutcome (α : Type) where
  | ok (v : α)
  | raised (msg : String)
  deriving DecidableEq

/-- Python runtime values we need to observe: here only the
`NotImplementedError` instance that `GenericPool.map`/`wait` build. -/
inductive PyVal where
  | notImplementedErrorVal (msg : String)
  deriving DecidableEq

/-- Embeds `GenericPool.wait` (pool.py line 86-87).  The Python body is
`return NotImplementedError('Method ``wait`` must be called from subclasses.')`:
it RETURNS the exception object as an ordinary value, it does not raise. -/
def GenericPool_wait : PyOutcome PyVal :=
  .ok (.notImplementedErrorVal "Method ``wait`` must be called from subclasses.")

/-- Embeds `GenericPool.map` (pool.py line 89-90).  The Python body is
`return NotImplementedError('Method ``map`` must be called from subclasses.')`:
it RETURNS the exception object as an ordinary value, it does not raise. -/
def GenericPool_map : PyOutcome PyVal :=
  .ok (.notImplementedErrorVal "Method ``map`` must be called from subclasses.")

/-- Transport-level effects a `close()` call performs. -/
inductive CloseEff where
  | sendCloseSentinel (dest : ℕ)
  deriving DecidableEq

/-- Embeds `GenericPool.close` (pool.py line 92-93): the body is `pass`,
so the call returns `None` and performs no effect. -/
def GenericPool_close : PyOutcome Unit × List CloseEff := (.ok (), [])

/-- Embeds `SerialPool`'s `close`, which is inherited unchanged from
`GenericPool.close` (pool.py line 92-93, `SerialPool` does not override it). -/
def SerialPool_close : PyOutcome Unit × List CloseEff := GenericPool_close

/-- Embeds `MPIPool.close` (pool.py line 305-313): when called on the master
it isends a `_close_pool_message` sentinel to every worker rank `i + 1`;
on a worker it does nothing.  There is no guard, so every call re-sends. -/
def MPIPool_close_effects (isMaster : Bool) (size : ℕ) : List CloseEff :=
  if isMaster then (List.range size).map (fun i => .sendCloseSentinel (i + 1)) else []

/-- Embeds the Python `with pool: body` protocol for `GenericPool`
(pool.py lines 95-99): `__enter__` returns the pool, and `__exit__`
runs `self.close()` exactly once, whether the body returned normally or
raised.  The result records the body's outcome and the number of times
`close` was invoked by block exit. -/
def withGenericPool (body : PyOutcome α) : PyOutcome α × ℕ :=
  (body, 1)

/-- Embeds `SerialPool.map` (pool.py line 740-741):
`return list(map(function, iterable))`. -/
def SerialPool_map (f : α → β) (iterable : List α) : List β :=
  List.map f iterable

/-- Embeds `SerialPool.enabled` (pool.py line 733-735). -/
def SerialPool_enabled : Bool := true

/-- Embeds `MultiPool.enabled` (pool.py line 789-795). -/
def MultiPool_enabled : Bool := true

/-- Embeds `MPIPool2.enabled` (pool.py line 347-352): true iff the
`mpi4py` transport imported successfully and `MPI.COMM_WORLD.size > 1`. -/
def MPIPool2_enabled (mpiPresent : Bool) (commWorldSize : ℕ) : Bool :=
  mpiPresent && decide (1 < commWorldSize)

/-- Embeds `MPIPool.enabled` (pool.py line 142-147), textually the same
check as `MPIPool2.enabled`. -/
def MPIPool_enabled (mpiPresent : Bool) (commWorldSize : ℕ) : Bool :=
  mpiPresent && decide (1 < commWorldSize)

/-- Embeds `MPIOptimizedPool.enabled` (pool.py line 480-489), again the
same check. -/
def MPIOptimizedPool_enabled (mpiPresent : Bool) (commWorldSize : ℕ) : Bool :=
  mpiPresent && decide (1 < commWorldSize)

/-- Embeds the construction-time checks of `MPIPool.__init__`
(pool.py lines 118-133): `ImportError` when `mpi4py` is absent, then
`self.size = comm.Get_size() - 1` and `ValueError` when `self.size == 0`. -/
def MPIPool_initCheck (mpiPresent : Bool) (commSize : ℕ) : Except String Unit :=
  if ¬ mpiPresent then .error "Please install mpi4py"
  else if commSize - 1 = 0 then
    .error "Tried to create an MPI pool, but there was only one MPI process available. Need at least two."
  else .ok ()

/-- Embeds the construction-time checks of `MPIPool2.__init__`
(pool.py lines 321-340): same `ImportError` / `ValueError` structure. -/
def MPIPool2_initCheck (mpiPresent : Bool) (commSize : ℕ) : Except String Unit :=
  if ¬ mpiPresent then .error "Please install mpi4py"
  else if commSize - 1 = 0 then
    .error "Tried to create an MPI pool, but there was only one MPI process available. Need at least two."
  else .ok ()

/-- Embeds the construction-time checks of `MPIOptimizedPool.__init__`
(pool.py lines 451-464): `ImportError` when `mpi4py` is absent, then
`ValueError` when `comm.size <= 1`. -/
def MPIOptimizedPool_initCheck (mpiPresent : Bool) (commSize : ℕ) : Except String Unit :=
  if ¬ mpiPresent then .error "Please install mpi4py."
  else if commSize ≤ 1 then
    .error "Tried to create an MPI pool, but there was only one MPI process available. Need at least two."
  else .ok ()

/-- Which pool class `choose_pool` hands back. -/
inductive PoolKind where
  | mpiPool2K
  | multiK
  | serialK
  deriving DecidableEq

/-- Outcome of a `choose_pool` call: a constructed pool, a `sys.exit`
(non-master MPI ranks), or a raised error. -/
inductive ChooseRes where
  | ret (k : PoolKind)
  | exited (code : ℕ)
  | err (msg : String)
  deriving DecidableEq

/-- Embeds `choose_pool` (pool.py lines 823-845).  `mpiPresent` is whether
`mpi4py` imported, `commWorldSize`/`rank` describe `MPI.COMM_WORLD`,
`processes` is the requested process count (a Python int).  With `mpi`
true it checks `MPIPool2.enabled()`, raising `SystemError` otherwise,
constructs `MPIPool2` (whose constructor re-raises on a single process and
holds non-master ranks in their service loop), then `sys.exit(0)`s every
non-master rank; with `mpi` false it returns `MultiPool` when
`processes != 1 and MultiPool.enabled()`, else `SerialPool`. -/
def choose_pool (mpiPresent : Bool) (commWorldSize rank : ℕ) (mpi : Bool)
    (processes : ℤ) : ChooseRes :=
  if mpi then
    if ¬ (MPIPool2_enabled mpiPresent commWorldSize = true) then
      .err "Tried to run with MPI but MPIPool not enabled."
    else if commWorldSize - 1 = 0 then
      .err "Tried to create an MPI pool, but there was only one MPI process available. Need at least two."
    else if rank ≠ 0 then .exited 0
    else .ret .mpiPool2K
  else if processes ≠ 1 ∧ MultiPool_enabled = true then .ret .multiK
  else .ret .serialK

/-- Outcome of one `r.get(self.wait_timeout)` attempt inside
`MultiPool.map` (pool.py lines 809-821): the asynchronous batch result
became available, the bounded wait timed out (`multiprocessing.TimeoutError`),
or a `KeyboardInterrupt` arrived during the wait. -/
inductive GetAttempt where
  | completes
  | timesOut
  | interrupted
  deriving DecidableEq

/-- Cleanup calls `MultiPool.map` performs before re-raising an interrupt. -/
inductive PoolAct where
  | terminateWorkers
  | joinWorkers
  deriving DecidableEq

/-- Result of `MultiPool.map`: the full batch result, or a re-raised
`KeyboardInterrupt` preceded by the recorded cleanup actions. -/
inductive MultiMapRes (β : Type) where
  | returns (v : List β)
  | interruptRaised (acts : List PoolAct)
  deriving DecidableEq

/-- Embeds `MultiPool.wait_timeout` (pool.py line 780): the finite timeout,
in seconds, passed to every `r.get` call. -/
def MultiPool_wait_timeout : ℕ := 3600

/-- Modelled from the spec: the value of `r.get(...)` once
`self.map_async(func, iterable, chunksize)` has completed.  `map_async`
lives in the Python standard library (outside this repository); per the
spec's pool contract its completed result is `[func(x) for x in iterable]`. -/
def map_async_result (f : α → β) (iterable : List α) : List β :=
  iterable.map f

/-- Embeds the `while True` loop of `MultiPool.map` (pool.py lines 813-821),
driven by the sequence of outcomes of the successive `r.get(self.wait_timeout)`
calls: a completed get returns the batch result; `multiprocessing.TimeoutError`
is swallowed and the loop retries; `KeyboardInterrupt` triggers
`self.terminate()`, `self.join()` and re-raises.  `none` means the given
outcome sequence ran out with the loop still spinning. -/
def MultiPool_map_loop (f : α → β) (iterable : List α) :
    List GetAttempt → Option (MultiMapRes β)
  | [] => none
  | .completes :: _ => some (.returns (map_async_result f iterable))
  | .timesOut :: rest => MultiPool_map_loop f iterable rest
  | .interrupted :: _ =>
      some (.interruptRaised [.terminateWorkers, .joinWorkers])

/-- The timeout argument passed to each `r.get` call made by
`MultiPool.map` while consuming the given attempt sequence: every call
passes `self.wait_timeout` (never `None`, which would wait indefinitely). -/
def MultiPool_map_timeouts (attempts : List GetAttempt) : List (Option ℕ) :=
  attempts.map (fun _ => some MultiPool_wait_timeout)

/-- A result message sitting in the MPI transport, as produced by an
`MPIPool` worker: `self.comm.isend(result, dest=0, tag=status.tag)`
(pool.py line 186) keeps the tag of the task it answers. -/
structure MpiMsg (β : Type) where
  source : ℕ
  tag : ℕ
  payload : β
  deriving DecidableEq

/-- Python's `enumerate` starting at `i`. -/
def enumFromN (i : ℕ) : List α → List (ℕ × α)
  | [] => []
  | x :: xs => (i, x) :: enumFromN (i + 1) xs

/-- The result messages generated by the static-dispatch branch of
`MPIPool.map` (pool.py lines 229-240): task `i` is sent to worker
`i % self.size + 1` with tag `i`; the worker answers `f task` from the
same source with the same tag (pool.py lines 183-186). -/
def staticMsgs (f : α → β) (size : ℕ) (tasks : List α) : List (MpiMsg β) :=
  (enumFromN 0 tasks).map (fun it => ⟨it.1 % size + 1, it.1, f it.2⟩)

/-- Embeds `self.comm.recv(source=worker, tag=i)`: picks the (unique)
pending message with the requested source and tag. -/
def recvMsg (msgs : List (MpiMsg β)) (src tag : ℕ) : Option β :=
  (msgs.find? (fun m => m.source == src && m.tag == tag)).map MpiMsg.payload

/-- Embeds the static-dispatch branch of `MPIPool.map`
(pool.py lines 229-252): after all tasks are isent, results are collected
by `recv(source=i % size + 1, tag=i)` for `i` in `0..n-1` and appended in
that order. -/
def mpiMapStatic (f : α → β) (size : ℕ) (tasks : List α) : List (Option β) :=
  (List.range tasks.length).map
    (fun i => recvMsg (staticMsgs f size tasks) (i % size + 1) i)

/-- The result messages the load-balancing branch eventually receives,
listed in their (arbitrary) arrival order: `arrival` enumerates task ids
in the order `recv(source=ANY_SOURCE, tag=ANY_TAG)` delivers them, and
the message tagged `i` carries `f tasks[i]` (pool.py lines 183-186). -/
def dynMsgs (f : α → β) (tasks : List α) (arrival : List ℕ) : List (ℕ × β) :=
  arrival.filterMap (fun i => (tasks[i]?).map (fun t => (i, f t)))

/-- Embeds `results = [None]*n_tasks` followed by `results[i] = result`
for each received message (pool.py lines 267-281). -/
def fillResults (n : ℕ) (msgs : List (ℕ × β)) : List (Option β) :=
  msgs.foldl (fun acc m => acc.set m.1 (some m.2)) (List.replicate n none)

/-- Embeds the load-balancing branch of `MPIPool.map`
(pool.py lines 254-297): results are received in arrival order and stored
by tag into the slot of the original task index. -/
def mpiMapDynamic (f : α → β) (tasks : List α) (arrival : List ℕ) :
    List (Option β) :=
  fillResults tasks.length (dynMsgs f tasks arrival)

/-- Embeds the dispatch-policy selection of `MPIPool.map`
(pool.py line 229): the static branch runs when
`(not self.loadbalance) or (n_tasks <= self.size)`, the load-balancing
branch otherwise. -/
def MPIPool_map (f : α → β) (loadbalance : Bool) (size : ℕ) (tasks : List α)
    (arrival : List ℕ) : List (Option β) :=
  if ¬ loadbalance = true ∨ tasks.length ≤ size then mpiMapStatic f size tasks
  else mpiMapDynamic f tasks arrival

/-- State of the `MPIPool2.map` master loop (pool.py lines 394-425).
`workerset` models the Python idle-worker set (its `pop` order is
irrelevant to the results, so it is kept as a list popped at the head);
`tasklist` is the pending list, popped at the END (`tasklist.pop()`);
entries hold `(taskid, arg)` — the mapped function is the fixed `f`
that the Python code pairs with every task.  `inflight` holds results
computed by workers but not yet received; `trace` records the task ids
in the order they were dispatched. -/
structure MP2State (α β : Type) where
  workerset : List ℕ
  tasklist : List (ℕ × α)
  resultlist : List (Option β)
  pending : ℕ
  inflight : List (ℕ × ℕ × β)
  trace : List ℕ
  deriving DecidableEq

/-- The dispatch phase of one iteration of the `while pending:` loop of
`MPIPool2.map` (pool.py lines 400-405): if the worker set and the task
list are both nonempty, pop an idle worker and the LAST task
(`tasklist.pop()` takes the end of the Python list), send it, and — the
worker being idle and then `ssend`-blocked on its answer — the result
tagged `taskid` joins the in-flight set. -/
def mp2dispatch (f : α → β) (s : MP2State α β) : MP2State α β :=
  match s.workerset, s.tasklist.getLast? with
  | w :: ws, some (taskid, arg) =>
      { s with
        workerset := ws
        tasklist := s.tasklist.dropLast
        inflight := s.inflight ++ [(w, taskid, f arg)]
        trace := s.trace ++ [taskid] }
  | _, _ => s

/-- The probe-and-receive phase of one loop iteration: with tasks still
pending a failed `Iprobe` makes the iteration `continue` without
receiving; with the task list empty the master blocks in `Probe` and
always receives.  Receiving takes the scheduled in-flight message, stores
its payload at index `taskid`, returns the worker to the idle set and
decrements `pending`. -/
def mp2doRecv (flagb : Bool) (s : MP2State α β) : Bool :=
  if s.tasklist.isEmpty then true
  else (¬ s.inflight.isEmpty) && flagb

/-- The state change of an actual receive of one in-flight message. -/
def mp2recvMsg (c : ℕ) (s : MP2State α β) (h : s.inflight.length ≠ 0) :
    MP2State α β :=
  let kidx : Fin s.inflight.length :=
    ⟨c % s.inflight.length, Nat.mod_lt _ (Nat.pos_of_ne_zero h)⟩
  let msg := s.inflight.get kidx
  { s with
    inflight := s.inflight.eraseIdx kidx.1
    workerset := msg.1 :: s.workerset
    resultlist := s.resultlist.set msg.2.1 (some msg.2.2)
    pending := s.pending - 1 }

def mp2recv (c : ℕ) (flagb : Bool) (s : MP2State α β) : MP2State α β :=
  if h : mp2doRecv flagb s = true ∧ s.inflight.length ≠ 0 then
    mp2recvMsg c s h.2
  else s

/-- One full iteration of the `while pending:` loop of `MPIPool2.map`
(pool.py lines 399-423), driven by one schedule decision: `c` picks which
in-flight result the `recv(ANY_SOURCE, ANY_TAG)` delivers, `flagb` is the
nondeterministic outcome of `Iprobe` when a message is in flight. -/
def mp2step (f : α → β) (c : ℕ) (flagb : Bool) (s : MP2State α β) :
    MP2State α β :=
  mp2recv c flagb (mp2dispatch f s)

/-- Runs the `MPIPool2.map` master loop under a finite schedule of
nondeterministic decisions; `none` means the schedule was exhausted with
results still pending. -/
def mp2run (f : α → β) : List (ℕ × Bool) → MP2State α β → Option (MP2State α β)
  | [], s => if s.pending = 0 then some s else none
  | d :: rest, s =>
      if s.pending = 0 then some s else mp2run f rest (mp2step f d.1 d.2 s)

/-- The state of `MPIPool2.map` just before its `while pending:` loop
(pool.py lines 394-397): a copy of the worker set, the enumerated task
list, `resultlist = [None] * len(tasklist)` and `pending = len(tasklist)`. -/
def mp2start (workers : List ℕ) (iterable : List α) : MP2State α β :=
  { workerset := workers
    tasklist := enumFromN 0 iterable
    resultlist := List.replicate iterable.length none
    pending := iterable.length
    inflight := []
    trace := [] }

/-- Task ids of the in-flight results of an `MPIPool2.map` state. -/
def mp2tids (s : MP2State α β) : List ℕ :=
  s.inflight.map (fun e => e.2.1)

/-- Invariant of the `MPIPool2.map` master loop, parameterized by the
number `m` of still-unpopped tasks: the pending stack holds the
enumeration of the first `m` inputs, the dispatch trace is
`[n-1, ..., m]`, every in-flight result carries `f` of its input at a
task id in `[m, n)` (all distinct), a result slot is filled with
`f xs[j]` exactly when task `j` is neither pending nor in flight, and
`pending` counts unreceived results. -/
def mp2inv (f : α → β) (xs : List α) (m : ℕ) (s : MP2State α β) : Prop :=
  m ≤ xs.length ∧
  s.resultlist.length = xs.length ∧
  s.tasklist = enumFromN 0 (xs.take m) ∧
  s.trace = ((List.range xs.length).reverse).take (xs.length - m) ∧
  (mp2tids s).Nodup ∧
  (∀ e ∈ s.inflight, m ≤ e.2.1 ∧ e.2.1 < xs.length ∧ (xs[e.2.1]?).map f = some e.2.2) ∧
  (∀ j, j < xs.length →
      s.resultlist[j]? = some (if j < m ∨ j ∈ mp2tids s then none else (xs[j]?).map f)) ∧
  s.pending = m + s.inflight.length

/-- A float value in the array-optimized pool: a numeric entry or NaN. -/
inductive FVal where
  | num (q : ℚ)
  | nan
  deriving DecidableEq

/-- A row of the 2-D input matrix of `MPIOptimizedPool.map`. -/
abbrev MatRow := List FVal

/-- Embeds `nans = np.empty(dims[1]); nans.fill(np.nan)`
(pool.py line 519): the sentinel padding row of width `c`. -/
def nanRow (c : ℕ) : MatRow := List.replicate c FVal.nan

/-- Embeds the chunk-building loop of `MPIOptimizedPool.map`
(pool.py lines 520-528) from absolute worker index `i` with `rem` workers
left and read offset `a`: each step takes `b = a + q + FULL[i]` rows
(`FULL[i] = 1` iff `i < r`), and when `r` is nonzero and `FULL[i]` is
zero pads the short slice with one `nans` row
(`tasks[i] = np.vstack([iterable[a:b], nans])`). -/
def optTasksGo (iterable : List MatRow) (c q r : ℕ) :
    ℕ → ℕ → ℕ → List (List MatRow)
  | _, _, 0 => []
  | i, a, rem + 1 =>
      let width := q + (if i < r then 1 else 0)
      let slice := (iterable.drop a).take width
      let chunk := if r ≠ 0 ∧ ¬ i < r then slice ++ [nanRow c] else slice
      chunk :: optTasksGo iterable c q r (i + 1) (a + width) (rem)

/-- Embeds the `tasks` matrix of `MPIOptimizedPool.map`
(pool.py lines 509-528): `q, r = divmod(len(iterable), size)` and the
chunk loop starting at worker 0, offset 0. -/
def optTasks (iterable : List MatRow) (c size : ℕ) : List (List MatRow) :=
  optTasksGo iterable c (iterable.length / size) (iterable.length % size) 0 0 size

/-- Embeds `MPIOptimizedPool.apply_function` (pool.py lines 684-688): the
body's first statement is `return [self.function(x) for x in task]`, so the
function is applied to EVERY row of the chunk, the NaN sentinel included;
the NaN-skipping loop below it (pool.py lines 690-696) sits after that
`return` and never executes. -/
def apply_function (f : MatRow → FVal) (task : List MatRow) : List FVal :=
  task.map (fun x => f x)

/-- The NaN-skipping computation written (unreachably) below the early
return of `apply_function` (pool.py lines 690-696): it would map NaN rows
to NaN without calling `self.function` on them. -/
def apply_function_skipNan (f : MatRow → FVal) (task : List MatRow) : List FVal :=
  task.map (fun x => if x.all (fun v => v == FVal.nan) then FVal.nan else f x)

/-- Embeds the task exchange of `MPIOptimizedPool.map`
(pool.py lines 603-632): worker `w` (rank `w+1`) receives chunk
`tasks[w]`, runs `apply_function` over it and sends the per-row result
vector back; the master stores each vector at index `source - 1`
(arrival order is irrelevant because results are keyed by worker), keeps
it whole when `FULL[w]` and drops its last entry otherwise, then
flattens the per-worker vectors in worker order. -/
def MPIOptimizedPool_map (f : MatRow → FVal) (size : ℕ) (iterable : List MatRow)
    (c : ℕ) : List FVal :=
  let q := iterable.length / size
  let r := iterable.length % size
  let tasks := optTasksGo iterable c q r 0 0 size
  let results := (List.range size).map (fun w =>
    let result := apply_function f ((tasks[w]?).getD [])
    if w < r then result else result.dropLast)
  results.flatten

/-- Sum of chunk widths `q + FULL[j]` over workers `i, i+1, ..., i+rem-1`. -/
def Wsum (q r : ℕ) : ℕ → ℕ → ℕ
  | _, 0 => 0
  | i, rem + 1 => (q + (if i < r then 1 else 0)) + Wsum q r (i + 1) rem

/-- The per-worker strip-and-flatten of the master's receive loop
(pool.py lines 607-632), written as a recursion over the chunk list:
worker `i`'s result vector is kept whole when `FULL[i]` and loses its
last entry otherwise. -/
def stripRun (f : MatRow → FVal) (r : ℕ) : ℕ → List (List MatRow) → List FVal
  | _, [] => []
  | i, ch :: rest =>
      (if i < r then apply_function f ch else (apply_function f ch).dropLast) ++
        stripRun f r (i + 1) rest

theorem enumFromN_length (i : ℕ) (l : List α) : (enumFromN i l).length = l.length := by
  induction l generalizing i with
  | nil => rfl
  | cons x xs ih => simp [enumFromN, ih]

theorem enumFromN_concat (x : α) : ∀ (l : List α) (i : ℕ),
    enumFromN i (l ++ [x]) = enumFromN i l ++ [(i + l.length, x)] := by
  intro l
  induction l with
  | nil => intro i; simp [enumFromN]
  | cons a l ih =>
    intro i
    have hidx : i + (a :: l).length = (i + 1) + l.length := by
      simp only [List.length_cons]
      omega
    calc enumFromN i ((a :: l) ++ [x])
        = (i, a) :: enumFromN (i + 1) (l ++ [x]) := rfl
      _ = (i, a) :: (enumFromN (i + 1) l ++ [((i + 1) + l.length, x)]) := by
          rw [ih (i + 1)]
      _ = enumFromN i (a :: l) ++ [(i + (a :: l).length, x)] := by
          rw [hidx]
          rfl

theorem map_eraseIdx_comm (g : γ → δ) : ∀ (l : List γ) (k : ℕ),
    (l.eraseIdx k).map g = (l.map g).eraseIdx k := by
  intro l
  induction l with
  | nil => intro k; cases k <;> rfl
  | cons a l ih =>
    intro k
    cases k with
    | zero => rfl
    | succ k => simp [List.eraseIdx, ih k]

theorem nodup_get_not_mem_eraseIdx :
    ∀ (l : List ℕ) (k : ℕ) (hk : k < l.length), l.Nodup →
      l.get ⟨k, hk⟩ ∉ l.eraseIdx k := by
  intro l
  induction l with
  | nil => intro k hk; cases hk
  | cons a l ih =>
    intro k hk hnd
    rcases List.nodup_cons.mp hnd with ⟨ha, hl⟩
    cases k with
    | zero => simpa using ha
    | succ k =>
      have hk' : k < l.length := by simpa using hk
      intro hmem
      have hget : (a :: l).get ⟨k + 1, hk⟩ = l.get ⟨k, hk'⟩ := rfl
      rw [hget] at hmem
      rcases List.mem_cons.mp hmem with h | h
      · exact ha (h ▸ List.get_mem l k hk')
      · exact ih k hk' hl h

theorem mem_eraseIdx_of_ne :
    ∀ (l : List ℕ) (k : ℕ) (hk : k < l.length) (j : ℕ), j ∈ l →
      j ≠ l.get ⟨k, hk⟩ → j ∈ l.eraseIdx k := by
  intro l
  induction l with
  | nil => intro k hk; cases hk
  | cons a l ih =>
    intro k hk j hj hne
    cases k with
    | zero =>
      rcases List.mem_cons.mp hj with h | h
      · exact absurd h hne
      · simpa using h
    | succ k =>
      rcases List.mem_cons.mp hj with h | h
      · simp [List.eraseIdx, h]
      · have := ih k (by simpa using hk) j h (by simpa using hne)
        simp [List.eraseIdx, this]

theorem mp2dispatch_eq_self_left (f : α → β) (s : MP2State α β)
    (hws : s.workerset = []) : mp2dispatch f s = s := by
  unfold mp2dispatch
  rw [hws]

theorem mp2dispatch_eq_self_none (f : α → β) (s : MP2State α β)
    (hlast : s.tasklist.getLast? = none) : mp2dispatch f s = s := by
  unfold mp2dispatch
  rw [hlast]
  cases s.workerset <;> rfl

theorem mp2dispatch_eq_cons (f : α → β) (s : MP2State α β) (w : ℕ) (ws : List ℕ)
    (taskid : ℕ) (arg : α) (hws : s.workerset = w :: ws)
    (hlast : s.tasklist.getLast? = some (taskid, arg)) :
    mp2dispatch f s =
      { s with
        workerset := ws
        tasklist := s.tasklist.dropLast
        inflight := s.inflight ++ [(w, taskid, f arg)]
        trace := s.trace ++ [taskid] } := by
  unfold mp2dispatch
  rw [hws, hlast]

/-- The dispatch phase preserves the master-loop invariant, lowering the
pending-stack size by at most one. -/
theorem mp2dispatch_inv (f : α → β) (xs : List α) (m : ℕ) (s : MP2State α β)
    (h : mp2inv f xs m s) :
    ∃ m', m' ≤ m ∧ mp2inv f xs m' (mp2dispatch f s) := by
  obtain ⟨hm, hrl, htl, htr, hnd, hinf, hres, hp⟩ := h
  rcases hws : s.workerset with _ | ⟨w, ws⟩
  · exact ⟨m, le_refl m,
      by rw [mp2dispatch_eq_self_left f s hws]
         exact ⟨hm, hrl, htl, htr, hnd, hinf, hres, hp⟩⟩
  rcases Nat.eq_zero_or_pos m with hm0 | hm1
  · have hempty : s.tasklist.getLast? = none := by
      rw [htl, hm0]
      rfl
    exact ⟨m, le_refl m,
      by rw [mp2dispatch_eq_self_none f s hempty]
         exact ⟨hm, hrl, htl, htr, hnd, hinf, hres, hp⟩⟩
  have hmn : m - 1 < xs.length := by omega
  have htake : xs.take m = xs.take (m - 1) ++ [xs.get ⟨m - 1, hmn⟩] := by
    have h1 : xs.take ((m - 1) + 1) = xs.take (m - 1) ++ xs[m - 1]?.toList :=
      List.take_succ
    rw [show (m - 1) + 1 = m by omega] at h1
    rw [h1, List.getElem?_eq_getElem hmn]
    rfl
  have hlen1 : (xs.take (m - 1)).length = m - 1 := by
    rw [List.length_take]; omega
  have hlast : s.tasklist.getLast? = some (m - 1, xs.get ⟨m - 1, hmn⟩) := by
    rw [htl, htake, enumFromN_concat, List.getLast?_concat, hlen1, Nat.zero_add]
  refine ⟨m - 1, by omega, ?_⟩
  rw [mp2dispatch_eq_cons f s w ws _ _ hws hlast]
  have htids : mp2tids
      { s with
        workerset := ws
        tasklist := s.tasklist.dropLast
        inflight := s.inflight ++ [(w, m - 1, f (xs.get ⟨m - 1, hmn⟩))]
        trace := s.trace ++ [m - 1] } = mp2tids s ++ [m - 1] := by
    simp [mp2tids]
  have htidge : ∀ x ∈ mp2tids s, m ≤ x := by
    intro x hx
    rcases List.mem_map.mp hx with ⟨e, he, rfl⟩
    exact (hinf e he).1
  refine ⟨by omega, hrl, ?_, ?_, ?_, ?_, ?_, ?_⟩
  · show s.tasklist.dropLast = enumFromN 0 (xs.take (m - 1))
    rw [htl, htake, enumFromN_concat, List.dropLast_concat]
  · show s.trace ++ [m - 1] = ((List.range xs.length).reverse).take (xs.length - (m - 1))
    rw [htr, show xs.length - (m - 1) = (xs.length - m) + 1 by omega, List.take_succ]
    congr 1
    have h2 : xs.length - m < (List.range xs.length).length := by
      rw [List.length_range]; omega
    rw [List.getElem?_reverse (by simpa using h2), List.length_range,
      show xs.length - 1 - (xs.length - m) = m - 1 by omega,
      List.getElem?_range (by omega)]
    rfl
  · rw [htids, List.nodup_append]
    refine ⟨hnd, List.nodup_singleton _, ?_⟩
    intro x hx hx1
    have := htidge x hx
    rcases List.mem_singleton.mp hx1 with rfl
    omega
  · intro e he
    rcases List.mem_append.mp he with h | h
    · rcases hinf e h with ⟨h1, h2, h3⟩
      exact ⟨by omega, h2, h3⟩
    · rcases List.mem_singleton.mp h with rfl
      refine ⟨le_refl _, hmn, ?_⟩
      rw [List.getElem?_eq_getElem hmn]
      rfl
  · intro j hj
    rw [htids]
    have horig := hres j hj
    rw [horig]
    congr 1
    have hiff : (j < m - 1 ∨ j ∈ mp2tids s ++ [m - 1]) ↔ (j < m ∨ j ∈ mp2tids s) := by
      rcases Decidable.em (j ∈ mp2tids s) with hP | hP
      · simp [hP, List.mem_append]
      · simp [hP, List.mem_append]
        omega
    rw [if_congr hiff rfl rfl]
  · show s.pending = (m - 1) + (s.inflight ++ [(w, m - 1, f (xs.get ⟨m - 1, hmn⟩))]).length
    rw [hp, List.length_append]
    simp
    omega

/-- The probe-and-receive phase preserves the master-loop invariant. -/
theorem mp2recvMsg_inv (f : α → β) (xs : List α) (m : ℕ) (c : ℕ)
    (s : MP2State α β) (hne : s.inflight.length ≠ 0) (h : mp2inv f xs m s) :
    mp2inv f xs m (mp2recvMsg c s hne) := by
  obtain ⟨hm, hrl, htl, htr, hnd, hinf, hres, hp⟩ := h
  have hklt : c % s.inflight.length < s.inflight.length :=
    Nat.mod_lt _ (Nat.pos_of_ne_zero hne)
  set e := s.inflight.get ⟨c % s.inflight.length, hklt⟩ with he
  have hbody : mp2recvMsg c s hne =
      { s with
        inflight := s.inflight.eraseIdx (c % s.inflight.length)
        workerset := e.1 :: s.workerset
        resultlist := s.resultlist.set e.2.1 (some e.2.2)
        pending := s.pending - 1 } := rfl
  rw [hbody]
  have hemem : e ∈ s.inflight := List.get_mem s.inflight _ _
  rcases hinf e hemem with ⟨het1, het2, het3⟩
  have hklt2 : c % s.inflight.length < (mp2tids s).length := by
    simpa [mp2tids] using hklt
  have htget : (mp2tids s).get ⟨c % s.inflight.length, hklt2⟩ = e.2.1 := by
    simp [mp2tids, he]
  have htids2 : mp2tids
      { s with
        inflight := s.inflight.eraseIdx (c % s.inflight.length)
        workerset := e.1 :: s.workerset
        resultlist := s.resultlist.set e.2.1 (some e.2.2)
        pending := s.pending - 1 } =
      (mp2tids s).eraseIdx (c % s.inflight.length) := by
    simp only [mp2tids]
    exact map_eraseIdx_comm _ s.inflight (c % s.inflight.length)
  refine ⟨hm, by simpa using hrl, htl, htr, ?_, ?_, ?_, ?_⟩
  · rw [htids2]
    exact List.Nodup.sublist (List.eraseIdx_sublist _ _) hnd
  · intro e' he'
    exact hinf e' (List.Sublist.mem he' (List.eraseIdx_sublist _ _))
  · intro j hj
    rw [htids2]
    by_cases hjt : j = e.2.1
    · subst hjt
      show (s.resultlist.set e.2.1 (some e.2.2))[e.2.1]? = _
      rw [List.getElem?_set_self (by omega)]
      have hnotmem : e.2.1 ∉ (mp2tids s).eraseIdx (c % s.inflight.length) := by
        have hx := nodup_get_not_mem_eraseIdx (mp2tids s) (c % s.inflight.length)
          hklt2 hnd
        rw [htget] at hx
        exact hx
      rw [if_neg (by push_neg; exact ⟨by omega, hnotmem⟩), het3]
    · show (s.resultlist.set e.2.1 (some e.2.2))[j]? = _
      rw [List.getElem?_set_ne (fun hh => hjt hh.symm)]
      rw [hres j hj]
      congr 1
      have hiff : (j < m ∨ j ∈ (mp2tids s).eraseIdx (c % s.inflight.length)) ↔
          (j < m ∨ j ∈ mp2tids s) := by
        constructor
        · rintro (h1 | h1)
          · exact Or.inl h1
          · exact Or.inr (List.Sublist.mem h1 (List.eraseIdx_sublist _ _))
        · rintro (h1 | h1)
          · exact Or.inl h1
          · refine Or.inr (mem_eraseIdx_of_ne (mp2tids s) (c % s.inflight.length)
              hklt2 j h1 ?_)
            rw [htget]
            exact hjt
      rw [if_congr hiff rfl rfl]
  · show s.pending - 1 = m + (s.inflight.eraseIdx (c % s.inflight.length)).length
    have hle := List.length_eraseIdx_add_one hklt
    omega

/-- The probe-and-receive phase preserves the master-loop invariant. -/
theorem mp2recv_inv (f : α → β) (xs : List α) (m : ℕ) (c : ℕ) (flagb : Bool)
    (s : MP2State α β) (h : mp2inv f xs m s) :
    mp2inv f xs m (mp2recv c flagb s) := by
  rw [mp2recv]
  split
  · exact mp2recvMsg_inv f xs m c s _ h
  · exact h

/-- A finished loop state (no result pending) holds the full result list
indexed by original input position and has dispatched the tasks in
reverse enumeration order. -/
theorem mp2done (f : α → β) (xs : List α) (m : ℕ) (s : MP2State α β)
    (hinv : mp2inv f xs m s) (hp0 : s.pending = 0) :
    s.resultlist = xs.map (fun x => some (f x)) ∧
    s.trace = (List.range xs.length).reverse := by
  obtain ⟨hm, hrl, htl, htr, hnd, hinf, hres, hp⟩ := hinv
  have hm0 : m = 0 := by omega
  have hinfnil : s.inflight = [] := List.length_eq_zero.mp (by omega)
  constructor
  · apply List.ext_getElem?
    intro j
    by_cases hj : j < xs.length
    · have hj2 := hres j hj
      rw [hm0] at hj2
      rw [hj2, if_neg (by simp [mp2tids, hinfnil])]
      rw [List.getElem?_map, List.getElem?_eq_getElem hj]
      rfl
    · rw [List.getElem?_eq_none (by omega), List.getElem?_eq_none (by simp; omega)]
  · rw [htr, hm0, Nat.sub_zero]
    apply List.take_of_length_le
    simp

/-- Any terminating run of the `MPIPool2.map` master loop, from any state
satisfying the invariant, ends with the oracle result list and the
reverse-order dispatch trace. -/
theorem mp2run_inv (f : α → β) (xs : List α) :
    ∀ (sched : List (ℕ × Bool)) (s : MP2State α β) (m : ℕ) (s' : MP2State α β),
      mp2inv f xs m s → mp2run f sched s = some s' →
      s'.resultlist = xs.map (fun x => some (f x)) ∧
      s'.trace = (List.range xs.length).reverse := by
  intro sched
  induction sched with
  | nil =>
    intro s m s' hinv hrun
    rw [mp2run] at hrun
    split at hrun
    · cases hrun
      exact mp2done f xs m s hinv (by assumption)
    · cases hrun
  | cons d rest ih =>
    intro s m s' hinv hrun
    rw [mp2run] at hrun
    split at hrun
    · cases hrun
      exact mp2done f xs m s hinv (by assumption)
    · obtain ⟨m', _, hinv'⟩ := mp2dispatch_inv f xs m s hinv
      exact ih _ m' s' (mp2recv_inv f xs m' d.1 d.2 _ hinv') hrun

/-- The loop's starting state satisfies the invariant with the full task
stack pending. -/
theorem mp2start_inv (f : α → β) (workers : List ℕ) (xs : List α) :
    mp2inv f xs xs.length (mp2start workers xs : MP2State α β) := by
  refine ⟨le_refl _, by simp [mp2start], ?_, by simp [mp2start], ?_, ?_, ?_,
    by simp [mp2start]⟩
  · show enumFromN 0 xs = enumFromN 0 (xs.take xs.length)
    rw [List.take_length]
  · simp [mp2start, mp2tids]
  · intro e he
    simp [mp2start] at he
  · intro j hj
    show (List.replicate xs.length (none : Option β))[j]? = _
    rw [List.getElem?_replicate]
    simp [mp2start, mp2tids, hj]

/-- Complete specification of a terminating `MPIPool2.map` run: for every
schedule of probe outcomes and arrival choices that drains all results,
the result list is the oracle's and the dispatch trace is the reverse of
the enumeration order. -/
theorem mp2run_spec (f : α → β) (workers : List ℕ) (xs : List α)
    (sched : List (ℕ × Bool)) (s' : MP2State α β)
    (hrun : mp2run f sched (mp2start workers xs) = some s') :
    s'.resultlist = xs.map (fun x => some (f x)) ∧
    s'.trace = (List.range xs.length).reverse :=
  mp2run_inv f xs sched _ xs.length s' (mp2start_inv f workers xs) hrun

theorem recvMsg_staticMsgs (f : α → β) (size : ℕ) :
    ∀ (tasks : List α) (k d : ℕ),
      recvMsg ((enumFromN k tasks).map (fun it => ⟨it.1 % size + 1, it.1, f it.2⟩))
        ((k + d) % size + 1) (k + d) = (tasks[d]?).map f := by
  intro tasks
  induction tasks with
  | nil => intro k d; rfl
  | cons t ts ih =>
    intro k d
    cases d with
    | zero =>
      simp [enumFromN, recvMsg, List.find?_cons_of_pos]
    | succ d =>
      have hne : (k == k + (d + 1)) = false := by
        simp
      simp only [enumFromN, List.map_cons]
      rw [recvMsg, List.find?_cons_of_neg, ← recvMsg]
      · have := ih (k + 1) d
        rw [show k + 1 + d = k + (d + 1) by omega] at this
        rw [this]
        simp
      · simp

/-- The static-dispatch receive loop of `MPIPool.map` recovers
`f tasks[i]` at every output position. -/
theorem mpiMapStatic_eq (f : α → β) (size : ℕ) (tasks : List α) :
    mpiMapStatic f size tasks = tasks.map (fun t => some (f t)) := by
  apply List.ext_getElem?
  intro j
  simp only [mpiMapStatic, staticMsgs]
  rw [List.getElem?_map, List.getElem?_map]
  by_cases hj : j < tasks.length
  · rw [List.getElem?_range hj]
    have hst := recvMsg_staticMsgs f size tasks 0 j
    simp only [Nat.zero_add] at hst
    have ht : tasks[j]? = some tasks[j] := List.getElem?_eq_getElem hj
    simp [staticMsgs, hst, ht]
  · rw [List.getElem?_eq_none (by simpa using hj), List.getElem?_eq_none (by simpa using hj)]
    rfl

theorem fillFold_getElem?_of_not_mem (j : ℕ) :
    ∀ (msgs : List (ℕ × β)) (acc : List (Option β)),
      j ∉ msgs.map Prod.fst →
      (msgs.foldl (fun acc m => acc.set m.1 (some m.2)) acc)[j]? = acc[j]? := by
  intro msgs
  induction msgs with
  | nil => intro acc _; rfl
  | cons m rest ih =>
    intro acc hj
    simp only [List.map_cons, List.mem_cons] at hj
    push_neg at hj
    simp only [List.foldl_cons]
    rw [ih _ hj.2]
    exact List.getElem?_set_ne (Ne.symm hj.1)

theorem fillFold_getElem?_of_mem (v : ℕ → Option β) (j : ℕ) :
    ∀ (msgs : List (ℕ × β)) (acc : List (Option β)),
      (∀ m ∈ msgs, v m.1 = some m.2) →
      j ∈ msgs.map Prod.fst → j < acc.length →
      (msgs.foldl (fun acc m => acc.set m.1 (some m.2)) acc)[j]? = some (v j) := by
  intro msgs
  induction msgs with
  | nil => intro acc _ hj _; cases hj
  | cons m rest ih =>
    intro acc hv hj hlen
    simp only [List.foldl_cons]
    by_cases hjr : j ∈ rest.map Prod.fst
    · exact ih _ (fun e he => hv e (List.mem_cons_of_mem m he)) hjr (by simpa using hlen)
    · have hjm : j = m.1 := by
        simp only [List.map_cons, List.mem_cons] at hj
        tauto
      rw [fillFold_getElem?_of_not_mem j rest _ hjr]
      subst hjm
      rw [List.getElem?_set_self (by simpa using hlen)]
      rw [hv m (List.mem_cons_self m rest)]

theorem dynMsgs_keys (f : α → β) (tasks : List α) :
    ∀ arrival : List ℕ, (∀ i ∈ arrival, i < tasks.length) →
      (dynMsgs f tasks arrival).map Prod.fst = arrival := by
  intro arrival
  induction arrival with
  | nil => intro _; rfl
  | cons i rest ih =>
    intro hmem
    have hi : i < tasks.length := hmem i (List.mem_cons_self i rest)
    obtain ⟨t, ht⟩ : ∃ t, tasks[i]? = some t := ⟨tasks[i], List.getElem?_eq_getElem hi⟩
    simp only [dynMsgs, List.filterMap_cons, ht, Option.map_some]
    simpa [dynMsgs] using ih (fun ii hh => hmem ii (List.mem_cons_of_mem i hh))

theorem dynMsgs_values (f : α → β) (tasks : List α) (arrival : List ℕ) :
    ∀ m ∈ dynMsgs f tasks arrival, (tasks[m.1]?).map f = some m.2 := by
  intro m hm
  simp only [dynMsgs, List.mem_filterMap] at hm
  obtain ⟨i, _, hio⟩ := hm
  cases ht : tasks[i]? with
  | none => rw [ht] at hio; cases hio
  | some t =>
    rw [ht] at hio
    simp only [Option.map_some', Option.some_inj] at hio
    subst hio
    simp [ht]

/-- The load-balancing receive loop of `MPIPool.map` fills slot `i` with
`f tasks[i]` for any arrival order that delivers every tag exactly once. -/
theorem mpiMapDynamic_eq (f : α → β) (tasks : List α) (arrival : List ℕ)
    (hperm : arrival.Perm (List.range tasks.length)) :
    mpiMapDynamic f tasks arrival = tasks.map (fun t => some (f t)) := by
  have hmemlt : ∀ i ∈ arrival, i < tasks.length := by
    intro i hi
    have := hperm.mem_iff.mp hi
    simpa using this
  apply List.ext_getElem?
  intro j
  by_cases hj : j < tasks.length
  · have hjarr : j ∈ arrival := hperm.mem_iff.mpr (by simpa using hj)
    have hkeys : j ∈ (dynMsgs f tasks arrival).map Prod.fst := by
      rw [dynMsgs_keys f tasks arrival hmemlt]; exact hjarr
    rw [mpiMapDynamic, fillResults,
      fillFold_getElem?_of_mem (fun i => (tasks[i]?).map f) j _ _
        (dynMsgs_values f tasks arrival) hkeys (by simpa using hj)]
    rw [List.getElem?_map, List.getElem?_eq_getElem hj]
    rfl
  · have hjarr : j ∉ arrival := fun h => hj (hmemlt j h)
    have hkeys : j ∉ (dynMsgs f tasks arrival).map Prod.fst := by
      rw [dynMsgs_keys f tasks arrival hmemlt]; exact hjarr
    rw [mpiMapDynamic, fillResults, fillFold_getElem?_of_not_mem j _ _ hkeys]
    rw [List.getElem?_eq_none (by simpa using hj),
      List.getElem?_eq_none (by simp; omega)]

theorem Wsum_eq (q r : ℕ) : ∀ (rem i : ℕ),
    Wsum q r i rem = rem * q + (min (i + rem) r - min i r) := by
  intro rem
  induction rem with
  | zero => intro i; simp [Wsum]
  | succ rem ih =>
    intro i
    rw [Wsum, ih (i + 1), Nat.succ_mul]
    by_cases h : i < r <;> simp [h] <;> omega

theorem Wsum_snoc (q r : ℕ) : ∀ (k i : ℕ),
    Wsum q r i (k + 1) = Wsum q r i k + (q + (if i + k < r then 1 else 0)) := by
  intro k
  induction k with
  | zero => intro i; simp [Wsum]
  | succ k ih =>
    intro i
    rw [Wsum, ih (i + 1), Wsum]
    have : i + 1 + k = i + (k + 1) := by omega
    rw [this]
    omega

theorem Wsum_mono (q r : ℕ) : ∀ (rem1 rem2 i : ℕ), rem1 ≤ rem2 →
    Wsum q r i rem1 ≤ Wsum q r i rem2 := by
  intro rem1
  induction rem1 with
  | zero => intro rem2 i _; exact Nat.zero_le _
  | succ rem1 ih =>
    intro rem2 i h
    obtain ⟨rem2', rfl⟩ : ∃ r2, rem2 = r2 + 1 := ⟨rem2 - 1, by omega⟩
    rw [Wsum, Wsum]
    exact Nat.add_le_add_left (ih rem2' (i + 1) (by omega)) _

theorem optTasksGo_length (rows : List MatRow) (c q r : ℕ) :
    ∀ (rem i a : ℕ), (optTasksGo rows c q r i a rem).length = rem := by
  intro rem
  induction rem with
  | zero => intro i a; rfl
  | succ rem ih => intro i a; simp [optTasksGo, ih]

/-- Closed form of the chunk handed to worker `i + w` by the chunk loop:
the slice of `q + FULL[i+w]` input rows starting at the accumulated
offset, padded with one sentinel row exactly when the division has a
remainder and `FULL[i+w]` is zero. -/
theorem optTasksGo_getElem? (rows : List MatRow) (c q r : ℕ) :
    ∀ (w rem i a : ℕ), w < rem →
      (optTasksGo rows c q r i a rem)[w]? =
        some ((rows.drop (a + Wsum q r i w)).take (q + (if i + w < r then 1 else 0)) ++
          (if r ≠ 0 ∧ ¬ i + w < r then [nanRow c] else [])) := by
  intro w
  induction w with
  | zero =>
    intro rem i a hw
    obtain ⟨rem', rfl⟩ : ∃ rr, rem = rr + 1 := ⟨rem - 1, by omega⟩
    simp only [optTasksGo, List.getElem?_cons_zero, Option.some_inj]
    by_cases h : i < r
    · simp [Wsum, h]
    · by_cases hr : r = 0
      · simp [Wsum, h, hr]
      · simp [Wsum, h, hr]
  | succ w ih =>
    intro rem i a hw
    obtain ⟨rem', rfl⟩ : ∃ rr, rem = rr + 1 := ⟨rem - 1, by omega⟩
    simp only [optTasksGo, List.getElem?_cons_succ]
    rw [ih rem' (i + 1) (a + (q + (if i < r then 1 else 0))) (by omega)]
    have e1 : i + 1 + w = i + (w + 1) := by omega
    have e2 : a + (q + (if i < r then 1 else 0)) + Wsum q r (i + 1) w =
        a + Wsum q r i (w + 1) := by
      rw [Wsum, Nat.add_assoc]
    rw [e1, e2]

theorem flatten_range_eq_stripRun (f : MatRow → FVal) (r : ℕ) :
    ∀ (chs : List (List MatRow)) (i : ℕ),
      ((List.range chs.length).map (fun w =>
        if i + w < r then apply_function f ((chs[w]?).getD [])
        else (apply_function f ((chs[w]?).getD [])).dropLast)).flatten =
      stripRun f r i chs := by
  intro chs
  induction chs with
  | nil => intro i; rfl
  | cons ch rest ih =>
    intro i
    rw [List.length_cons, List.range_succ_eq_map, List.map_cons, List.flatten_cons,
      List.map_map]
    have hpt : ∀ w ∈ List.range rest.length,
        ((fun w =>
          if i + w < r then apply_function f (((ch :: rest)[w]?).getD [])
          else (apply_function f (((ch :: rest)[w]?).getD [])).dropLast) ∘ Nat.succ) w =
        (fun w =>
          if (i + 1) + w < r then apply_function f ((rest[w]?).getD [])
          else (apply_function f ((rest[w]?).getD [])).dropLast) w := by
      intro w _
      have e1 : i + (w + 1) = i + 1 + w := by omega
      simp only [Function.comp, List.getElem?_cons_succ, e1]
    rw [List.map_congr_left hpt, ih (i + 1)]
    simp only [stripRun, List.getElem?_cons_zero, Option.getD_some, Nat.add_zero]

/-- When the row count does not divide evenly (`r ≠ 0`), stripping the
padded last entries and flattening recovers exactly the mapped rows of
the covered range. -/
theorem stripRun_optTasksGo_of_ne (f : MatRow → FVal) (rows : List MatRow)
    (c q r : ℕ) (hr : r ≠ 0) :
    ∀ (rem i a : ℕ),
      stripRun f r i (optTasksGo rows c q r i a rem) =
        ((rows.drop a).take (Wsum q r i rem)).map f := by
  intro rem
  induction rem with
  | zero => intro i a; simp [optTasksGo, stripRun, Wsum]
  | succ rem ih =>
    intro i a
    rw [Wsum]
    simp only [optTasksGo, stripRun]
    rw [ih (i + 1) (a + (q + (if i < r then 1 else 0)))]
    conv_rhs => rw [List.take_add, List.map_append, List.drop_drop]
    congr 1
    by_cases h : i < r
    · have hpad : ¬ (r ≠ 0 ∧ ¬ i < r) := fun hc => hc.2 h
      rw [if_pos h, if_neg hpad]
      rfl
    · have hpad : r ≠ 0 ∧ ¬ i < r := ⟨hr, h⟩
      rw [if_neg h, if_pos hpad]
      simp [apply_function, List.dropLast_concat]

/-- When the rows divide evenly (`r = 0`), no chunk is padded but the
receive loop still drops the last entry of every worker's result, so the
flattened output is only a sublist of the mapped rows. -/
theorem stripRun_optTasksGo_zero (f : MatRow → FVal) (rows : List MatRow)
    (c q : ℕ) :
    ∀ (rem i a : ℕ),
      (stripRun f 0 i (optTasksGo rows c q 0 i a rem)).Sublist
        (((rows.drop a).take (Wsum q 0 i rem)).map f) := by
  intro rem
  induction rem with
  | zero => intro i a; simp [optTasksGo, stripRun, Wsum]
  | succ rem ih =>
    intro i a
    rw [Wsum]
    simp only [optTasksGo, stripRun]
    conv_rhs => rw [List.take_add, List.map_append, List.drop_drop]
    refine List.Sublist.append ?_ (ih (i + 1) (a + (q + (if i < 0 then 1 else 0))))
    have h1 : ¬ i < 0 := by omega
    have h2 : ¬ ((0 : ℕ) ≠ 0 ∧ ¬ i < 0) := by simp
    rw [if_neg h2, if_neg h1]
    exact List.dropLast_sublist _

/-- Bridges `MPIOptimizedPool_map` to `stripRun` over the chunk list. -/
theorem MPIOptimizedPool_map_eq_stripRun (f : MatRow → FVal) (size : ℕ)
    (rows : List MatRow) (c : ℕ) :
    MPIOptimizedPool_map f size rows c =
      stripRun f (rows.length % size) 0
        (optTasksGo rows c (rows.length / size) (rows.length % size) 0 0 size) := by
  rw [MPIOptimizedPool_map]
  have hlen : (optTasksGo rows c (rows.length / size) (rows.length % size) 0 0 size).length
      = size := optTasksGo_length rows c _ _ size 0 0
  rw [← flatten_range_eq_stripRun f (rows.length % size) _ 0]
  rw [hlen]
  congr 1
  apply List.map_congr_left
  intro w _
  simp [Nat.zero_add]

/-- With a nonzero remainder the optimized map returns exactly the mapped
rows in original order. -/
theorem MPIOptimizedPool_map_of_mod_ne (f : MatRow → FVal) (size : ℕ)
    (rows : List MatRow) (c : ℕ) (hsize : 0 < size)
    (hr : rows.length % size ≠ 0) :
    MPIOptimizedPool_map f size rows c = rows.map f := by
  rw [MPIOptimizedPool_map_eq_stripRun,
    stripRun_optTasksGo_of_ne f rows c _ _ hr size 0 0, List.drop_zero]
  have hWs : Wsum (rows.length / size) (rows.length % size) 0 size = rows.length := by
    rw [Wsum_eq]
    have hlt := Nat.mod_lt rows.length hsize
    have htot := Nat.div_add_mod rows.length size
    omega
  rw [hWs, List.take_length]

/-- The optimized map never invents entries: its output is always a
sublist of the serial oracle's output (in particular no padding-sentinel
result survives and order is preserved). -/
theorem MPIOptimizedPool_map_sublist (f : MatRow → FVal) (size : ℕ)
    (rows : List MatRow) (c : ℕ) :
    (MPIOptimizedPool_map f size rows c).Sublist (rows.map f) := by
  rcases Nat.eq_zero_or_pos size with hsz | hsz
  · subst hsz
    simp [MPIOptimizedPool_map]
  by_cases hr : rows.length % size = 0
  · rw [MPIOptimizedPool_map_eq_stripRun, hr]
    have hsub := stripRun_optTasksGo_zero f rows c (rows.length / size) size 0 0
    have hWs : Wsum (rows.length / size) 0 0 size = rows.length := by
      rw [Wsum_eq]
      have htot := Nat.div_add_mod rows.length size
      rw [hr] at htot
      omega
    rw [List.drop_zero, hWs, List.take_length] at hsub
    exact hsub
  · rw [MPIOptimizedPool_map_of_mod_ne f size rows c hsz hr]

/-- The empty input maps to the empty output for the optimized pool. -/
theorem MPIOptimizedPool_map_nil (f : MatRow → FVal) (size c : ℕ) :
    MPIOptimizedPool_map f size ([] : List MatRow) c = [] := by
  have := MPIOptimizedPool_map_sublist f size ([] : List MatRow) c
  simpa using this

theorem ceil_div_mod_ne (n s : ℕ) (hs : 0 < s) (hr : n % s ≠ 0) :
    (n + s - 1) / s = n / s + 1 := by
  have h1 := Nat.div_add_mod n s
  have h2 := Nat.mod_lt n hs
  have h3 : n + s - 1 = s * (n / s + 1) + (n % s - 1) := by
    rw [Nat.mul_add, Nat.mul_one]
    omega
  have h4 : (n % s - 1) / s = 0 := Nat.div_eq_of_lt (by omega)
  rw [h3, Nat.mul_add_div hs, h4]

/-- C7: `MPIPool2.map` consumes its pending-task list as a stack — the
dispatch trace of every terminating run is exactly the reverse of the
input enumeration order — while the returned list is indexed by the
original input position (slot `taskid` holds the result tagged `taskid`),
for every probe/arrival schedule. -/
theorem c7_stack_dispatch :
    ∀ (α β : Type) (f : α → β) (workers : List ℕ) (xs : List α)
      (sched : List (ℕ × Bool)) (s' : MP2State α β),
      mp2run f sched (mp2start workers xs) = some s' →
      s'.trace = (List.range xs.length).reverse ∧
      s'.resultlist = xs.map (fun x => some (f x)) := by
  intro α β f workers xs sched s' h
  have hspec := mp2run_spec f workers xs sched s' h
  exact ⟨hspec.2, hspec.1⟩

/-- C7 witness: a concrete terminating run on three tasks and two workers
dispatches tasks in the order 2, 1, 0 and fills the slots in input order. -/
theorem c7_stack_dispatch_witness :
    (mp2run (fun n => n + 1) (List.replicate 8 (0, true))
        (mp2start [1, 2] [10, 20, 30])).map MP2State.trace = some [2, 1, 0] ∧
    (mp2run (fun n => n + 1) (List.replicate 8 (0, true))
        (mp2start [1, 2] [10, 20, 30])).map MP2State.resultlist =
      some [some 11, some 21, some 31] := by
  cases hI : mp2run (fun n => n + 1) (List.replicate 8 (0, true))
      (mp2start [1, 2] [10, 20, 30]) with
  | none => exact absurd hI (by decide)
  | some s' =>
    have h := c7_stack_dispatch ℕ ℕ (fun n => n + 1) [1, 2] [10, 20, 30]
      (List.replicate 8 (0, true)) s' hI
    simp only [Option.map_some']
    constructor
    · rw [h.1]
      rfl
    · rw [h.2]
      rfl

/-- C6: for the same pure function and input sequence, the dynamic
load-balanced dispatch of `MPIPool.map` produces the same output list,
indexed by original input position, as the static round-robin dispatch,
for EVERY order in which workers return results (any permutation of the
task tags as arrival order). -/
theorem c6_dispatch_policies_agree :
    ∀ (α β : Type) (f : α → β) (size : ℕ) (tasks : List α) (arrival : List ℕ),
      arrival.Perm (List.range tasks.length) →
      mpiMapDynamic f tasks arrival = mpiMapStatic f size tasks := by
  intro α β f size tasks arrival hperm
  rw [mpiMapDynamic_eq f tasks arrival hperm, mpiMapStatic_eq]

/-- C6 witness: a concrete out-of-order arrival for five tasks on two
workers agrees with the static result. -/
theorem c6_dispatch_policies_agree_witness :
    List.Perm [4, 2, 0, 3, 1] (List.range 5) ∧
    mpiMapDynamic (fun n => n + 1) [10, 20, 30, 40, 50] [4, 2, 0, 3, 1] =
      mpiMapStatic (fun n => n + 1) 2 [10, 20, 30, 40, 50] :=
  ⟨by decide,
   c6_dispatch_policies_agree ℕ ℕ (fun n => n + 1) 2 [10, 20, 30, 40, 50]
     [4, 2, 0, 3, 1] (by decide)⟩

/-- C2: with 7 rows and 3 workers the chunk loop builds three chunks of
uniform height 3, exactly the last two padded with the NaN sentinel row,
and `map` returns all 7 results in original row order; in general every
chunk holds `floor(rows/workers)` or (when the division is uneven)
`ceil(rows/workers)` real rows, and the returned list is a sublist of the
serial oracle's (no padding-sentinel result ever appears, order
preserved). -/
theorem c2_chunk_padding_roundtrip :
    (∀ (rows : List MatRow) (c : ℕ) (f : MatRow → FVal), rows.length = 7 →
      optTasks rows c 3 =
        [rows.take 3, (rows.drop 3).take 2 ++ [nanRow c],
         (rows.drop 5).take 2 ++ [nanRow c]] ∧
      (∀ ch ∈ optTasks rows c 3, ch.length = 3) ∧
      MPIOptimizedPool_map f 3 rows c = rows.map f ∧
      (MPIOptimizedPool_map f 3 rows c).length = 7) ∧
    (∀ (size : ℕ) (rows : List MatRow) (c w : ℕ), w < size + 1 →
      ∃ realPart : List MatRow,
        (optTasks rows c (size + 1))[w]? =
          some (realPart ++
            (if rows.length % (size + 1) ≠ 0 ∧ ¬ w < rows.length % (size + 1)
             then [nanRow c] else [])) ∧
        (realPart.length = rows.length / (size + 1) ∨
         (rows.length % (size + 1) ≠ 0 ∧
          realPart.length = (rows.length + (size + 1) - 1) / (size + 1)))) ∧
    (∀ (f : MatRow → FVal) (size : ℕ) (rows : List MatRow) (c : ℕ),
      (MPIOptimizedPool_map f size rows c).Sublist (rows.map f)) := by
  refine ⟨?_, ?_, fun f size rows c => MPIOptimizedPool_map_sublist f size rows c⟩
  · intro rows c f h7
    have hmap : MPIOptimizedPool_map f 3 rows c = rows.map f :=
      MPIOptimizedPool_map_of_mod_ne f 3 rows c (by omega) (by rw [h7]; decide)
    have htasks : optTasks rows c 3 =
        [rows.take 3, (rows.drop 3).take 2 ++ [nanRow c],
         (rows.drop 5).take 2 ++ [nanRow c]] := by
      rw [optTasks, h7]
      norm_num [optTasksGo]
    refine ⟨htasks, ?_, hmap, by rw [hmap]; simp [h7]⟩
    intro ch hch
    rw [htasks] at hch
    rcases List.mem_cons.mp hch with rfl | hch
    · rw [List.length_take, h7]
      omega
    rcases List.mem_cons.mp hch with rfl | hch
    · rw [List.length_append, List.length_take, List.length_drop, h7]
      rfl
    rcases List.mem_cons.mp hch with rfl | hch
    · rw [List.length_append, List.length_take, List.length_drop, h7]
      rfl
    cases hch
  · intro size rows c w hw
    have htop : Wsum (rows.length / (size + 1)) (rows.length % (size + 1)) 0 (size + 1) =
        rows.length := by
      rw [Wsum_eq]
      have hlt := Nat.mod_lt rows.length (show 0 < size + 1 by omega)
      have htot := Nat.div_add_mod rows.length (size + 1)
      omega
    have hsnoc := Wsum_snoc (rows.length / (size + 1)) (rows.length % (size + 1)) w 0
    have hmono := Wsum_mono (rows.length / (size + 1)) (rows.length % (size + 1))
      (w + 1) (size + 1) 0 (by omega)
    have hget := optTasksGo_getElem? rows c (rows.length / (size + 1))
      (rows.length % (size + 1)) w (size + 1) 0 0 hw
    simp only [Nat.zero_add] at hget hsnoc
    by_cases h0w : w < rows.length % (size + 1)
    · have hsnoc1 : Wsum (rows.length / (size + 1)) (rows.length % (size + 1)) 0 (w + 1) =
          Wsum (rows.length / (size + 1)) (rows.length % (size + 1)) 0 w +
            (rows.length / (size + 1) + 1) := by
        rw [hsnoc, if_pos h0w]
      refine ⟨(rows.drop (Wsum (rows.length / (size + 1))
        (rows.length % (size + 1)) 0 w)).take (rows.length / (size + 1) + 1), ?_,
        Or.inr ⟨by omega, ?_⟩⟩
      · rw [optTasks, hget, if_pos h0w, if_neg (by omega)]
      · rw [List.length_take, List.length_drop]
        rw [ceil_div_mod_ne rows.length (size + 1) (by omega) (by omega)]
        omega
    · have hsnoc1 : Wsum (rows.length / (size + 1)) (rows.length % (size + 1)) 0 (w + 1) =
          Wsum (rows.length / (size + 1)) (rows.length % (size + 1)) 0 w +
            (rows.length / (size + 1) + 0) := by
        rw [hsnoc, if_neg h0w]
      refine ⟨(rows.drop (Wsum (rows.length / (size + 1))
        (rows.length % (size + 1)) 0 w)).take (rows.length / (size + 1) + 0), ?_,
        Or.inl ?_⟩
      · rw [optTasks, hget, if_neg h0w]
      · rw [List.length_take, List.length_drop]
        omega

/-- C2 witness: the 7-row, 3-worker case at a concrete matrix, and a
concrete padded chunk from the general invariant. -/
theorem c2_chunk_padding_roundtrip_witness :
    ([[FVal.num 0], [FVal.num 1], [FVal.num 2], [FVal.num 3], [FVal.num 4],
      [FVal.num 5], [FVal.num 6]] : List MatRow).length = 7 ∧
    optTasks [[FVal.num 0], [FVal.num 1], [FVal.num 2], [FVal.num 3], [FVal.num 4],
        [FVal.num 5], [FVal.num 6]] 1 3 =
      [[[FVal.num 0], [FVal.num 1], [FVal.num 2]],
       [[FVal.num 3], [FVal.num 4], nanRow 1],
       [[FVal.num 5], [FVal.num 6], nanRow 1]] ∧
    MPIOptimizedPool_map (fun _ => FVal.num 9) 3
      [[FVal.num 0], [FVal.num 1], [FVal.num 2], [FVal.num 3], [FVal.num 4],
       [FVal.num 5], [FVal.num 6]] 1 =
      [FVal.num 9, FVal.num 9, FVal.num 9, FVal.num 9, FVal.num 9, FVal.num 9,
       FVal.num 9] ∧
    (optTasks [[FVal.num 0], [FVal.num 1], [FVal.num 2], [FVal.num 3], [FVal.num 4],
        [FVal.num 5], [FVal.num 6]] 1 3)[1]? ≠ none := by
  have h := c2_chunk_padding_roundtrip
  have h1 := h.1 [[FVal.num 0], [FVal.num 1], [FVal.num 2], [FVal.num 3], [FVal.num 4],
    [FVal.num 5], [FVal.num 6]] 1 (fun _ => FVal.num 9) rfl
  refine ⟨rfl, ?_, ?_, ?_⟩
  · rw [h1.1]
    rfl
  · rw [h1.2.2.1]
    rfl
  · obtain ⟨rp, heq, _⟩ := h.2.1 2 [[FVal.num 0], [FVal.num 1], [FVal.num 2],
      [FVal.num 3], [FVal.num 4], [FVal.num 5], [FVal.num 6]] 1 1 (by omega)
    show (optTasks [[FVal.num 0], [FVal.num 1], [FVal.num 2], [FVal.num 3], [FVal.num 4],
        [FVal.num 5], [FVal.num 6]] 1 (2 + 1))[1]? ≠ none
    intro hnone
    rw [heq] at hnone
    cases hnone

/-- C10: the worker of the array-optimized pool applies its bound function
to EVERY row of its chunk, the NaN padding sentinel included — the
executed body of `apply_function` is the early `return` list
comprehension, while the NaN-skipping loop below it is dead code whose
behavior (mapping all-NaN rows to NaN without calling the function)
differs; for every uneven map the padded last chunk has the sentinel as
its last row, the function IS invoked on it, and that result is stripped
before reassembly, the map returning exactly the oracle's list. -/
theorem c10_sentinel_row_applied :
    (∀ (f : MatRow → FVal) (task : List MatRow),
        apply_function f task = task.map f) ∧
    (∀ (f : MatRow → FVal) (size : ℕ) (rows : List MatRow) (c : ℕ),
        0 < size → rows.length % size ≠ 0 →
        ∃ realPart : List MatRow,
          (optTasks rows c size)[size - 1]? = some (realPart ++ [nanRow c]) ∧
          apply_function f (realPart ++ [nanRow c]) =
            realPart.map f ++ [f (nanRow c)] ∧
          MPIOptimizedPool_map f size rows c = rows.map f) ∧
    (∀ (f : MatRow → FVal) (c : ℕ),
        apply_function f [nanRow c] = [f (nanRow c)] ∧
        apply_function_skipNan f [nanRow c] = [FVal.nan]) := by
  refine ⟨fun _ _ => rfl, ?_, ?_⟩
  · intro f size rows c hsz hr
    have hw : size - 1 < size := by omega
    have hrlt : rows.length % size < size := Nat.mod_lt _ hsz
    have hget := optTasksGo_getElem? rows c (rows.length / size)
      (rows.length % size) (size - 1) size 0 0 hw
    simp only [Nat.zero_add] at hget
    have hge : ¬ size - 1 < rows.length % size := by omega
    refine ⟨(rows.drop (Wsum (rows.length / size) (rows.length % size) 0
      (size - 1))).take (rows.length / size + 0), ?_, ?_, ?_⟩
    · rw [optTasks, hget, if_neg hge, if_pos ⟨hr, hge⟩]
    · simp [apply_function]
    · exact MPIOptimizedPool_map_of_mod_ne f size rows c hsz hr
  · intro f c
    exact ⟨rfl, by simp [apply_function_skipNan, nanRow, List.all_eq_true,
      List.mem_replicate]⟩

/-- C10 witness: three rows on two workers — the second chunk carries the
sentinel, the function is applied to it, and the returned list is the
oracle's. -/
theorem c10_sentinel_row_applied_witness :
    (0 < 2 ∧ ([[FVal.num 1], [FVal.num 2], [FVal.num 3]] : List MatRow).length % 2 ≠ 0) ∧
    MPIOptimizedPool_map (fun _ => FVal.num 5) 2
      [[FVal.num 1], [FVal.num 2], [FVal.num 3]] 1 =
      [FVal.num 5, FVal.num 5, FVal.num 5] ∧
    (optTasks [[FVal.num 1], [FVal.num 2], [FVal.num 3]] 1 2)[2 - 1]? ≠ none ∧
    apply_function (fun _ => FVal.num 5) [nanRow 1] = [FVal.num 5] ∧
    apply_function_skipNan (fun _ => FVal.num 5) [nanRow 1] = [FVal.nan] := by
  have h := c10_sentinel_row_applied
  obtain ⟨rp, hchunk, happ, hmap⟩ := h.2.1 (fun _ => FVal.num 5) 2
    [[FVal.num 1], [FVal.num 2], [FVal.num 3]] 1 (by omega) (by decide)
  refine ⟨⟨by omega, by decide⟩, ?_, ?_, (h.2.2 (fun _ => FVal.num 5) 1).1,
    (h.2.2 (fun _ => FVal.num 5) 1).2⟩
  · rw [hmap]
    rfl
  · intro hnone
    rw [hchunk] at hnone
    cases hnone

/-- C1 counterexample: the claim includes input lengths that are positive
exact multiples of the worker count for the array-optimized backend, but
there the receive loop strips the last element of EVERY worker's result
(`FULL` is all-zero when the remainder is zero, pool.py lines 520, 624-627):
mapping a 2-row matrix on 2 workers returns `[]` instead of the two
mapped rows. -/
theorem c1_map_counterexample :
    MPIOptimizedPool_map (fun _ => FVal.num 5) 2 [[FVal.num 1], [FVal.num 2]] 1 = [] ∧
    MPIOptimizedPool_map (fun _ => FVal.num 5) 2 [[FVal.num 1], [FVal.num 2]] 1 ≠
      List.map (fun _ => FVal.num 5) [[FVal.num 1], [FVal.num 2]] := by
  have h0 : MPIOptimizedPool_map (fun _ => FVal.num 5) 2
      [[FVal.num 1], [FVal.num 2]] 1 = [] := rfl
  refine ⟨h0, ?_⟩
  rw [h0]
  intro h
  cases h

/-- C1 amended: every backend's `map` returns exactly
`[f x for x in xs]` in original input order — the serial pool always; the
general MPI pool under both dispatch policies for every arrival order
(slots are `Option`-valued as the code preallocates `[None]*n`); the
probe-based MPI pool for every terminating schedule; the shared-memory
pool whenever its batch wait completes; and the array-optimized pool for
every input whose row count is zero or NOT a positive exact multiple of
the worker count (at positive exact multiples the code instead drops the
last element of each worker's result, as the counterexample shows). -/
theorem c1_map_amended :
    (∀ (α β : Type) (f : α → β) (xs : List α),
        SerialPool_map f xs = xs.map f) ∧
    (∀ (α β : Type) (f : α → β) (lb : Bool) (size : ℕ) (xs : List α)
        (arrival : List ℕ), arrival.Perm (List.range xs.length) →
        MPIPool_map f lb size xs arrival = xs.map (fun x => some (f x))) ∧
    (∀ (α β : Type) (f : α → β) (workers : List ℕ) (xs : List α)
        (sched : List (ℕ × Bool)) (s' : MP2State α β),
        mp2run f sched (mp2start workers xs) = some s' →
        s'.resultlist = xs.map (fun x => some (f x))) ∧
    (∀ (f : MatRow → FVal) (size : ℕ) (rows : List MatRow) (c : ℕ),
        0 < size → (rows.length % size ≠ 0 ∨ rows = []) →
        MPIOptimizedPool_map f size rows c = rows.map f) ∧
    (∀ (α β : Type) (f : α → β) (xs : List α) (rest : List GetAttempt),
        MultiPool_map_loop f xs (.completes :: rest) =
          some (.returns (xs.map f))) := by
  refine ⟨fun _ _ _ _ => rfl, ?_, ?_, ?_, fun _ _ _ _ _ => rfl⟩
  · intro α β f lb size xs arrival hperm
    rw [MPIPool_map]
    split
    · exact mpiMapStatic_eq f size xs
    · exact mpiMapDynamic_eq f xs arrival hperm
  · intro α β f workers xs sched s' h
    exact (mp2run_spec f workers xs sched s' h).1
  · intro f size rows c hsz hr
    rcases hr with hr | rfl
    · exact MPIOptimizedPool_map_of_mod_ne f size rows c hsz hr
    · rw [MPIOptimizedPool_map_nil]
      rfl

/-- C1 witness: each backend applied at a concrete input, with the
hypotheses discharged concretely. -/
theorem c1_map_amended_witness :
    SerialPool_map (fun n => n * 2) [1, 2, 3] = [2, 4, 6] ∧
    MPIPool_map (fun n => n + 1) true 2 [10, 20, 30, 40, 50] [4, 2, 0, 3, 1] =
      [some 11, some 21, some 31, some 41, some 51] ∧
    (mp2run (fun n => n + 5) (List.replicate 8 (1, true))
        (mp2start [1, 2] [7, 8, 9])).map MP2State.resultlist =
      some [some 12, some 13, some 14] ∧
    MPIOptimizedPool_map (fun row => row.headD FVal.nan) 3
      [[FVal.num 1], [FVal.num 2], [FVal.num 3], [FVal.num 4]] 1 =
      [FVal.num 1, FVal.num 2, FVal.num 3, FVal.num 4] ∧
    MultiPool_map_loop (fun n => n + 1) [1, 2] [GetAttempt.completes] =
      some (.returns [2, 3]) := by
  have h := c1_map_amended
  refine ⟨?_, ?_, ?_, ?_, ?_⟩
  · rw [h.1 ℕ ℕ (fun n => n * 2) [1, 2, 3]]
    rfl
  · rw [h.2.1 ℕ ℕ (fun n => n + 1) true 2 [10, 20, 30, 40, 50] [4, 2, 0, 3, 1]
      (by decide)]
    rfl
  · cases hI : mp2run (fun n => n + 5) (List.replicate 8 (1, true))
        (mp2start [1, 2] [7, 8, 9]) with
    | none => exact absurd hI (by decide)
    | some s' =>
      simp only [Option.map_some']
      rw [h.2.2.1 ℕ ℕ (fun n => n + 5) [1, 2] [7, 8, 9]
        (List.replicate 8 (1, true)) s' hI]
      rfl
  · rw [h.2.2.2.1 (fun row => row.headD FVal.nan) 3
      [[FVal.num 1], [FVal.num 2], [FVal.num 3], [FVal.num 4]] 1 (by omega)
      (Or.inl (by decide))]
    rfl
  · rw [h.2.2.2.2 ℕ ℕ (fun n => n + 1) [1, 2] []]
    rfl

/-- C3: the claim says `GenericPool.map` and `GenericPool.wait` raise a
`NotImplementedError` when not overridden.  The code instead RETURNS the
`NotImplementedError` instance as an ordinary value (`return` where
`raise` was clearly intended, pool.py lines 86-90): no exception is
raised, and the caller receives the exception object as the result. -/
theorem c3_generic_map_wait_return_not_raise :
    (∀ e : String, GenericPool_map ≠ .raised e) ∧
    (∀ e : String, GenericPool_wait ≠ .raised e) ∧
    GenericPool_map =
      .ok (.notImplementedErrorVal "Method ``map`` must be called from subclasses.") ∧
    GenericPool_wait =
      .ok (.notImplementedErrorVal "Method ``wait`` must be called from subclasses.") := by
  refine ⟨?_, ?_, rfl, rfl⟩ <;> intro e h <;> simp [GenericPool_map, GenericPool_wait] at h

/-- C8: `MultiPool.map` never waits indefinitely — every wait on the
completion primitive passes the finite `wait_timeout` (3600); a
timed-out wait is retried; a `KeyboardInterrupt` leads to
`terminate()`, `join()` and a re-raise, never to a returned (partial)
result. -/
theorem c8_multipool_map_interrupt_safe :
    (∀ (α β : Type) (f : α → β) (xs : List α) (rest : List GetAttempt),
        MultiPool_map_loop f xs (.timesOut :: rest) = MultiPool_map_loop f xs rest) ∧
    (∀ (α β : Type) (f : α → β) (xs : List α) (rest : List GetAttempt),
        MultiPool_map_loop f xs (.interrupted :: rest) =
          some (.interruptRaised [.terminateWorkers, .joinWorkers])) ∧
    (∀ (α β : Type) (f : α → β) (xs : List α) (rest : List GetAttempt) (v : List β),
        MultiPool_map_loop f xs (.interrupted :: rest) ≠ some (.returns v)) ∧
    (∀ attempts : List GetAttempt,
        MultiPool_map_timeouts attempts =
          List.replicate attempts.length (some MultiPool_wait_timeout)) ∧
    MultiPool_wait_timeout = 3600 := by
  refine ⟨fun _ _ _ _ _ => rfl, fun _ _ _ _ _ => rfl, ?_, ?_, rfl⟩
  · intro α β f xs rest v h
    simp [MultiPool_map_loop] at h
  · intro attempts
    simp [MultiPool_map_timeouts, List.map_const']

/-- C4 counterexample: the claim says `choose_pool` with `mpi=False`
returns the shared-memory `MultiPool` exactly when the requested process
count is greater than 1 and a `SerialPool` otherwise; but the code tests
`processes != 1` (pool.py line 839), so at `processes = 0` it selects
`MultiPool`, not `SerialPool`. -/
theorem c4_choose_pool_counterexample :
    choose_pool true 4 0 false 0 = .ret .multiK ∧
    choose_pool true 4 0 false 0 ≠ .ret .serialK := by
  constructor <;> decide

/-- C4 amended: `choose_pool` with `mpi=True` and the MPI transport
enabled yields an `MPIPool2` on the master rank and exits the program on
every non-master rank; with `mpi=False` it selects the shared-memory
`MultiPool` exactly when the requested process count differs from 1
(`MultiPool.enabled()` being always true), and a `SerialPool` when the
count is exactly 1. -/
theorem c4_choose_pool_amended :
    ∀ (mpiPresent : Bool) (commWorldSize rank : ℕ) (processes : ℤ),
      (MPIPool2_enabled mpiPresent commWorldSize = true →
        choose_pool mpiPresent commWorldSize rank true processes =
          (if rank = 0 then .ret .mpiPool2K else .exited 0)) ∧
      (choose_pool mpiPresent commWorldSize rank false processes = .ret .multiK ↔
        processes ≠ 1) ∧
      (processes = 1 →
        choose_pool mpiPresent commWorldSize rank false processes = .ret .serialK) := by
  intro mpiPresent cws rank p
  refine ⟨?_, ?_, ?_⟩
  · intro hen
    have hcws : 1 < cws := by
      simp [MPIPool2_enabled] at hen
      exact hen.2
    simp only [choose_pool, hen, not_true, if_false, if_true]
    have h1 : ¬ (cws - 1 = 0) := by omega
    simp only [h1, if_false]
    by_cases hr : rank = 0
    · simp [hr]
    · simp [hr]
  · constructor
    · intro h hp
      rw [hp] at h
      simp [choose_pool, MultiPool_enabled] at h
    · intro hp
      simp [choose_pool, hp, MultiPool_enabled]
  · intro hp
    simp [choose_pool, hp, MultiPool_enabled]

/-- C4 witness: the amended theorem applied at concrete inputs. -/
theorem c4_choose_pool_witness :
    choose_pool true 4 0 true 1 = .ret .mpiPool2K ∧
    choose_pool true 4 3 true 1 = .exited 0 ∧
    choose_pool true 4 0 false 5 = .ret .multiK ∧
    choose_pool true 4 0 false 1 = .ret .serialK := by
  have h0 := c4_choose_pool_amended true 4 0 1
  have h3 := c4_choose_pool_amended true 4 3 1
  have h5 := c4_choose_pool_amended true 4 0 5
  refine ⟨?_, ?_, ?_, h0.2.2 rfl⟩
  · have := h0.1 (by decide)
    simpa using this
  · have := h3.1 (by decide)
    simpa using this
  · exact h5.2.1.mpr (by decide)

/-- C5: requesting MPI when the transport is absent or only one process
is visible raises a `SystemError` naming MPI (pool.py lines 828-830),
and `choose_pool(mpi=True, ...)` never returns a serial or shared-memory
pool; each distributed constructor (`MPIPool`, `MPIPool2`,
`MPIOptimizedPool`) raises at construction when the total process count
is 1. -/
theorem c5_fail_fast :
    (∀ (mpiPresent : Bool) (cws rank : ℕ) (p : ℤ),
        MPIPool2_enabled mpiPresent cws = false →
        choose_pool mpiPresent cws rank true p =
          .err "Tried to run with MPI but MPIPool not enabled.") ∧
    (∀ (mpiPresent : Bool) (cws rank : ℕ) (p : ℤ),
        choose_pool mpiPresent cws rank true p ≠ .ret .serialK ∧
        choose_pool mpiPresent cws rank true p ≠ .ret .multiK) ∧
    (∀ mp : Bool,
        MPIPool_initCheck mp 1 ≠ .ok () ∧
        MPIPool2_initCheck mp 1 ≠ .ok () ∧
        MPIOptimizedPool_initCheck mp 1 ≠ .ok ()) ∧
    MPIPool_initCheck true 1 =
      .error "Tried to create an MPI pool, but there was only one MPI process available. Need at least two." ∧
    MPIPool2_initCheck true 1 =
      .error "Tried to create an MPI pool, but there was only one MPI process available. Need at least two." ∧
    MPIOptimizedPool_initCheck true 1 =
      .error "Tried to create an MPI pool, but there was only one MPI process available. Need at least two." := by
  refine ⟨?_, ?_, ?_, by rfl, by rfl, by rfl⟩
  · intro mpiPresent cws rank p hen
    simp [choose_pool, hen]
  · intro mpiPresent cws rank p
    constructor <;>
      · intro h
        unfold choose_pool at h
        split at h
        · split at h
          · cases h
          · split at h
            · cases h
            · split at h
              · cases h
              · cases h
        · simp at *
  · intro mp
    cases mp <;> refine ⟨?_, ?_, ?_⟩ <;> intro h <;> cases h

/-- C5 witness: the fail-fast theorem applied at concrete inputs. -/
theorem c5_fail_fast_witness :
    MPIPool2_enabled false 5 = false ∧
    choose_pool false 5 0 true 2 =
      .err "Tried to run with MPI but MPIPool not enabled." ∧
    MPIPool2_enabled true 1 = false ∧
    choose_pool true 1 0 true 2 =
      .err "Tried to run with MPI but MPIPool not enabled." ∧
    MPIPool_initCheck true 1 ≠ .ok () :=
  ⟨by decide, c5_fail_fast.1 false 5 0 2 (by decide), by decide,
   c5_fail_fast.1 true 1 0 2 (by decide), (c5_fail_fast.2.2.1 true).1⟩

/-- C9 counterexample: the claim says a second `close()` changes nothing
beyond the first, for every pool.  For an `MPIPool` master the body of
`close` unconditionally isends the close sentinel to every worker
(pool.py lines 305-313), so a second call sends the sentinels again: the
cumulative transport trace of two calls differs from that of one. -/
theorem c9_close_counterexample :
    MPIPool_close_effects true 1 ++ MPIPool_close_effects true 1 ≠
      MPIPool_close_effects true 1 := by
  decide

/-- C9 amended: `close()` on the serial pool (inherited from
`GenericPool.close`, a `pass`) never raises, performs no effect, and is
idempotent; an `MPIPool` master's `close` re-sends the close sentinels on
every call (so a second close repeats the sends rather than doing
nothing), while a worker's `close` does nothing; leaving the
`GenericPool` scoped-usage block invokes `close()` exactly once, whether
the body returned normally or raised. -/
theorem c9_close_amended :
    SerialPool_close = (.ok (), []) ∧
    SerialPool_close.2 ++ SerialPool_close.2 = SerialPool_close.2 ∧
    (∀ size : ℕ, MPIPool_close_effects true (size + 1) ≠ []) ∧
    (∀ size : ℕ, MPIPool_close_effects false size = []) ∧
    (∀ v : ℕ, withGenericPool (.ok v) = (.ok v, 1)) ∧
    (∀ e : String, withGenericPool (α := ℕ) (.raised e) = (.raised e, 1)) := by
  refine ⟨rfl, rfl, ?_, fun _ => rfl, fun _ => rfl, fun _ => rfl⟩
  intro size h
  have := congrArg List.length h
  simp [MPIPool_close_effects] at this

end ThejokerPool
